import Mathlib

/-!
Verification of the path-morphing engine of the shape-lerping repository.

The data model and operations below are shallow embeddings of
`src/path_lerping.rs` (the variant-tolerant engine) and of the
`path_lerping` module inside `src/main.rs` (the per-axis variant).
Floating-point coordinates are modelled as rationals, so arithmetic is
exact; Rust panics (`assert!`, `unwrap`, `unreachable!`) are modelled by
`Option` with `none` standing for a panic.
-/

namespace ShapeLerp

/-- Planar point, from `tess::math::Point` (a pair of coordinates). -/
structure Point where
  x : ℚ
  y : ℚ
deriving DecidableEq, Repr

/-- Squared Euclidean distance between two points. -/
def Point.dist2 (a b : Point) : ℚ :=
  (a.x - b.x) ^ 2 + (a.y - b.y) ^ 2

/-- Embeds the Rust comparison `a.distance_to(b) > p`.  Since
`distance_to` is the (nonnegative) Euclidean distance, the comparison is
exactly `p < 0 ∨ p ^ 2 < dist2 a b`, which avoids square roots and keeps
the definition executable over ℚ. -/
def Point.distGT (a b : Point) (p : ℚ) : Bool :=
  decide (p < 0 ∨ p ^ 2 < Point.dist2 a b)

/-- Pointwise lerp of `euclid` (`Point2D::lerp`):
`(1 - t) * self + t * other`, per axis. -/
def Point.lerp (a b : Point) (t : ℚ) : Point :=
  ⟨(1 - t) * a.x + t * b.x, (1 - t) * a.y + t * b.y⟩

/-- Embeds `impl Lerp for Point` of `src/path_lerping.rs` lines 15-24:
lerp, then
snap to `other` when the result is within distance `p` of `other`. -/
def Point.lerped (self other : Point) (t p : ℚ) : Bool × Point :=
  let result := Point.lerp self other t
  if Point.distGT result other p then (false, result) else (true, other)

/-- Path event of the `lyon` crate (`tess::path::Event`, concrete points);
`begin` is the Start command, `end_` carries the close flag. -/
inductive Event where
  | begin (at_ : Point)
  | line (from_ to_ : Point)
  | quadratic (from_ ctrl to_ : Point)
  | cubic (from_ ctrl1 ctrl2 to_ : Point)
  | end_ (last first : Point) (close : Bool)
deriving DecidableEq, Repr

/-- The variant tag of an event. -/
inductive Tag where
  | begin
  | line
  | quadratic
  | cubic
  | end_
deriving DecidableEq, Repr

/-- Variant tag of an event. -/
def Event.tag : Event → Tag
  | .begin _ => .begin
  | .line _ _ => .line
  | .quadratic _ _ _ => .quadratic
  | .cubic _ _ _ _ => .cubic
  | .end_ _ _ _ => .end_

/-- Amount of geometric information carried by a variant
(cubic > quadratic > line ≈ end > start). -/
def Tag.rank : Tag → Nat
  | .begin => 0
  | .line => 1
  | .end_ => 1
  | .quadratic => 2
  | .cubic => 3

/-- The inner helper `lerp_other` of `impl Lerp for PathEvent`
(`src/path_lerping.rs` lines 28-93): lerps the four stand-in points of
`self` against whatever points `other` carries; an `End` output has its
close flag forced to `true`. -/
def lerp_other (from_from from_to from_ctrl from_ctrl2 : Point)
    (other : Event) (t p : ℚ) : Bool × Event :=
  match other with
  | .begin b =>
      let r := Point.lerped from_from b t p
      (r.1, .begin r.2)
  | .line b1 b2 =>
      let r1 := Point.lerped from_from b1 t p
      let r2 := Point.lerped from_to b2 t p
      (r1.1 && r2.1, .line r1.2 r2.2)
  | .quadratic b1 bc b2 =>
      let r1 := Point.lerped from_from b1 t p
      let rc := Point.lerped from_ctrl bc t p
      let r2 := Point.lerped from_to b2 t p
      (r1.1 && rc.1 && r2.1, .quadratic r1.2 rc.2 r2.2)
  | .cubic b1 bc1 bc2 b2 =>
      let r1 := Point.lerped from_from b1 t p
      let rc1 := Point.lerped from_ctrl bc1 t p
      let rc2 := Point.lerped from_ctrl2 bc2 t p
      let r2 := Point.lerped from_to b2 t p
      (r1.1 && rc1.1 && rc2.1 && r2.1, .cubic r1.2 rc1.2 rc2.2 r2.2)
  | .end_ bl bf _ =>
      let rl := Point.lerped from_from bl t p
      let rf := Point.lerped from_to bf t p
      (rl.1 && rf.1, .end_ rl.2 rf.2 true)

/-- Embeds `impl Lerp for PathEvent` (`src/path_lerping.rs` lines 26-222):
command-level lerp reconciling mismatched variants with endpoint-derived
stand-in control points. -/
def Event.lerped (self other : Event) (t p : ℚ) : Bool × Event :=
  match self with
  | .begin a => lerp_other a a a a other t p
  | .line a1 a2 =>
      match other with
      | .begin b =>
          let r1 := Point.lerped a1 b t p
          let r2 := Point.lerped a2 b t p
          (r1.1 && r2.1, .line r1.2 r2.2)
      | _ =>
          let midpoint := Point.lerp a1 a2 (1 / 2)
          lerp_other a1 a2 midpoint midpoint other t p
  | .quadratic a1 ac a2 =>
      match other with
      | .begin b =>
          let r1 := Point.lerped a1 b t p
          let rc := Point.lerped ac b t p
          let r2 := Point.lerped a2 b t p
          (r1.1 && rc.1 && r2.1, .quadratic r1.2 rc.2 r2.2)
      | .line b1 b2 =>
          let r1 := Point.lerped a1 b1 t p
          let rc := Point.lerped ac (Point.lerp b1 b2 (1 / 2)) t p
          let r2 := Point.lerped a2 b2 t p
          let all := r1.1 && rc.1 && r2.1
          (all, if all then other else .quadratic r1.2 rc.2 r2.2)
      | .end_ b1 b2 _ =>
          let r1 := Point.lerped a1 b1 t p
          let rc := Point.lerped ac (Point.lerp b1 b2 (1 / 2)) t p
          let r2 := Point.lerped a2 b2 t p
          let all := r1.1 && rc.1 && r2.1
          (all, if all then other else .quadratic r1.2 rc.2 r2.2)
      | _ => lerp_other a1 a2 ac ac other t p
  | .cubic a1 ac1 ac2 a2 =>
      match other with
      | .begin b =>
          let r1 := Point.lerped a1 b t p
          let rc1 := Point.lerped ac1 b t p
          let rc2 := Point.lerped ac2 b t p
          let r2 := Point.lerped a2 b t p
          (r1.1 && rc1.1 && rc2.1 && r2.1, .cubic r1.2 rc1.2 rc2.2 r2.2)
      | .line b1 b2 =>
          let r1 := Point.lerped a1 b1 t p
          let midpoint := Point.lerp b1 b2 (1 / 2)
          let rc1 := Point.lerped ac1 midpoint t p
          let rc2 := Point.lerped ac2 midpoint t p
          let r2 := Point.lerped a2 b2 t p
          let all := r1.1 && rc1.1 && rc2.1 && r2.1
          (all, if all then other else .cubic r1.2 rc1.2 rc2.2 r2.2)
      | .end_ b1 b2 _ =>
          let r1 := Point.lerped a1 b1 t p
          let midpoint := Point.lerp b1 b2 (1 / 2)
          let rc1 := Point.lerped ac1 midpoint t p
          let rc2 := Point.lerped ac2 midpoint t p
          let r2 := Point.lerped a2 b2 t p
          let all := r1.1 && rc1.1 && rc2.1 && r2.1
          (all, if all then other else .cubic r1.2 rc1.2 rc2.2 r2.2)
      | .quadratic b1 bc b2 =>
          let r1 := Point.lerped a1 b1 t p
          let rc1 := Point.lerped ac1 bc t p
          let rc2 := Point.lerped ac2 bc t p
          let r2 := Point.lerped a2 b2 t p
          let all := r1.1 && rc1.1 && rc2.1 && r2.1
          (all, if all then other else .cubic r1.2 rc1.2 rc2.2 r2.2)
      | _ => lerp_other a1 a2 ac1 ac2 other t p
  | .end_ l f c =>
      match other with
      | .begin b =>
          let rl := Point.lerped l b t p
          let rf := Point.lerped f b t p
          (rl.1 && rf.1, .end_ rl.2 rf.2 c)
      | _ =>
          let midpoint := Point.lerp l f (1 / 2)
          lerp_other l f midpoint midpoint other t p

/-- A path is its ordered sequence of events. -/
abbrev Path := List Event

/-- Embeds `lerp_equal_sides` (`src/path_lerping.rs` lines 234-250):
zip the two
event sequences, lerp each pair, AND all the flags together. -/
def lerp_equal_sides (from_ to_ : Path) (t p : ℚ) : Bool × Path :=
  let results := (from_.zip to_).map fun fg => Event.lerped fg.1 fg.2 t p
  (results.foldl (fun acc r => acc && r.1) true, results.map (·.2))

/-- Embeds `lerp_less_sides` (`src/path_lerping.rs` lines 252-268):
pad `from`
at the front with repeated copies of its first event (or of the first
event of `to` when `from` is empty), then merge.  `none` models the `assert!`
or `unwrap` panicking. -/
def lerp_less_sides (from_ to_ : Path) (t p : ℚ) : Option (Bool × Path) :=
  if from_.length < to_.length then
    match from_.head?.orElse (fun _ => to_.head?) with
    | none => none
    | some e =>
        some (lerp_equal_sides
          (List.replicate (to_.length - from_.length) e ++ from_) to_ t p)
  else none

/-- Embeds `lerp_greater_sides` (`src/path_lerping.rs` lines 270-290):
pad `to`
at the front with repeated copies of its first event, merge, and on full
convergence replace the result with `to` itself. -/
def lerp_greater_sides (from_ to_ : Path) (t p : ℚ) : Option (Bool × Path) :=
  if from_.length > to_.length then
    match to_.head?.orElse (fun _ => from_.head?) with
    | none => none
    | some e =>
        let r := lerp_equal_sides from_
          (List.replicate (from_.length - to_.length) e ++ to_) t p
        some (r.1, if r.1 then to_ else r.2)
  else none

/-- Embeds `impl Lerp for &Path` (`src/path_lerping.rs` lines 224-232):
dispatch
on the comparison of the two command counts. -/
def Path.lerped (self other : Path) (t p : ℚ) : Option (Bool × Path) :=
  match compare self.length other.length with
  | .eq => some (lerp_equal_sides self other t p)
  | .lt => lerp_less_sides self other t p
  | .gt => lerp_greater_sides self other t p

/-- Well-formed path per spec §3: non-empty, begins with a Start command
and ends with an End command. -/
def wellFormed (path : Path) : Bool :=
  (match path.head? with
   | some (.begin _) => true
   | _ => false) &&
  (match path.getLast? with
   | some (.end_ _ _ _) => true
   | _ => false)

/-- Scalar lerp of the `lerp` crate used by `src/main.rs`:
`self + (other - self) * t`. -/
def lerpQ (a b t : ℚ) : ℚ := a + (b - a) * t

/-- Per-axis point lerp as written in `src/main.rs` (`Point2D::new` of the
two scalar lerps). -/
def lerpPt (a b : Point) (t : ℚ) : Point := ⟨lerpQ a.x b.x t, lerpQ a.y b.y t⟩

/-- Embeds `check_if_within_margin_of_error` (`src/main.rs` lines 197-208):
a point is within the margin unless either axis deviates by more than
`margin_of_error`.  `true` plays `WithinMarginOfError`. -/
def checkWithin (a b : Point) (m : ℚ) : Bool :=
  !(decide (|a.x - b.x| > m) || decide (|a.y - b.y| > m))

/-- One arm of the `match` in `src/main.rs::path_lerping::lerp_equal_sides`
(lines 218-303): only like-tagged `Begin`/`Line`/`End` pairs are handled;
any other pair hits `unreachable!()`, modelled as `none`. -/
def lerpEventMain (fe ge : Event) (t m : ℚ) : Option (Event × Bool) :=
  match fe, ge with
  | .begin fa, .begin ta =>
      let a := lerpPt fa ta t
      some (.begin a, checkWithin a ta m)
  | .line f1 f2, .line g1 g2 =>
      let c1 := lerpPt f1 g1 t
      let c2 := lerpPt f2 g2 t
      some (.line c1 c2, checkWithin c1 g1 m && checkWithin c2 g2 m)
  | .end_ fl ff _, .end_ gl gf _ =>
      let cl := lerpPt fl gl t
      let cf := lerpPt ff gf t
      some (.end_ cl cf true, checkWithin cl gl m && checkWithin cf gf m)
  | _, _ => none

/-- Collects the per-pair results of `lerpEventMain` over a list of
command pairs, propagating the first `unreachable!()` as `none` (the Rust
iterator is consumed in order by `Path::from_iter`). -/
def mapEvents (l : List (Event × Event)) (t m : ℚ) :
    Option (List (Event × Bool)) :=
  match l with
  | [] => some []
  | fg :: rest =>
      match lerpEventMain fg.1 fg.2 t m, mapEvents rest t m with
      | some r, some rs => some (r :: rs)
      | _, _ => none

/-- State of the lyon path builder while replaying an event stream: the
current position and the first point of the current subpath.  After an
`End`, every stream the embedded code builds continues with a `Begin`
(which overwrites the state), so the post-`End` value is immaterial; the
model returns to the subpath start. -/
def stepState (s : Point × Point) : Event → Point × Point
  | .begin a => (a, a)
  | .line _ b => (b, s.2)
  | .quadratic _ _ b => (b, s.2)
  | .cubic _ _ _ b => (b, s.2)
  | .end_ _ _ _ => (s.2, s.2)

/-- Re-derivation performed by lyon when a path built from an event
stream is iterated again: a stored path keeps only the new endpoints and
control points of each event, so the start point of a segment is the
previous position, and an `End` reports the current position as `last`
and the subpath start as `first`; only the close flag is kept. -/
def reEvent (s : Point × Point) : Event → Event
  | .begin a => .begin a
  | .line _ b => .line s.1 b
  | .quadratic _ c b => .quadratic s.1 c b
  | .cubic _ c1 c2 b => .cubic s.1 c1 c2 b
  | .end_ _ _ close => .end_ s.1 s.2 close

/-- Replays an event stream through the builder, re-deriving the
positional fields of every event. -/
def fromIterGo (s : Point × Point) : List Event → List Event
  | [] => []
  | e :: rest => reEvent s e :: fromIterGo (stepState s e) rest

/-- Models the lyon `Path::from_iter` round-trip (build a `Path` from an
event iterator, then iterate it): each produced event has its `from`,
`last` and `first` points re-derived from the position of the previous
event.  The initial position is immaterial for streams starting with
`Begin` — every stream the embedded code builds does; the model uses the
origin. -/
def fromIter (l : List Event) : List Event :=
  fromIterGo (⟨0, 0⟩, ⟨0, 0⟩) l

/-- Embeds `path_lerping::lerp_equal_sides` of `src/main.rs` (lines 191-308):
assert equal counts, lerp pairwise, accumulate the per-axis margin flag.
The produced path goes through `Path::from_iter` (and a
`Builder::concatenate` round-trip, which copies the stored path
verbatim), so its events are re-derived by `fromIter`. -/
def lerp_equal_sides_main (from_ to_ : Path) (t m : ℚ) :
    Option (Path × Bool) :=
  if from_.length = to_.length then
    match mapEvents (from_.zip to_) t m with
    | none => none
    | some rs => some (fromIter (rs.map (·.1)), rs.all (·.2))
  else none

/-- Embeds `path_lerping::lerp_less_sides` of `src/main.rs` (lines 310-341):
splice `to_count - from_count` degenerate zero-length `Line` copies of the
`to` endpoint of the `Line` at index `from_count / 2` into the event
stream, rebuild the path via `Path::from_iter` (which re-derives every
start point), and merge; if the command at the midpoint index is not a
`Line`, the code hits `unreachable!()` (`none`). -/
def lerp_less_sides_main (from_ to_ : Path) (t m : ℚ) :
    Option (Path × Bool) :=
  if from_.length < to_.length then
    match from_.get? (from_.length / 2) with
    | some (.line _ dup) =>
        lerp_equal_sides_main
          (fromIter (from_.take (from_.length / 2) ++
            List.replicate (to_.length - from_.length) (.line dup dup) ++
            from_.drop (from_.length / 2)))
          to_ t m
    | _ => none
  else none

/-- Embeds `path_lerping::lerp_greater_sides` of `src/main.rs` (lines 343-379):
splice `diff` copies of the command of `to` at index `to_count / 2` into
the event stream and rebuild via `Path::from_iter`, merge, and on
convergence remove `diff` commands starting at `from_count / 2` and
rebuild again (re-welding the seam). -/
def lerp_greater_sides_main (from_ to_ : Path) (t m : ℚ) :
    Option (Path × Bool) :=
  if from_.length > to_.length then
    match to_.get? (to_.length / 2) with
    | none => none
    | some dup =>
        let diff := from_.length - to_.length
        let padded := fromIter (to_.take (to_.length / 2) ++
          List.replicate diff dup ++ to_.drop (to_.length / 2))
        match lerp_equal_sides_main from_ padded t m with
        | none => none
        | some (lerped, res) =>
            if res then
              some (fromIter (lerped.take (from_.length / 2) ++
                lerped.drop (from_.length / 2 + diff)), res)
            else
              some (lerped, res)
  else none

/-- Embeds `impl Lerpable for Path` of `src/main.rs` (lines 178-187). -/
def lerpPathMain (self target : Path) (t m : ℚ) : Option (Path × Bool) :=
  match compare self.length target.length with
  | .eq => lerp_equal_sides_main self target t m
  | .lt => lerp_less_sides_main self target t m
  | .gt => lerp_greater_sides_main self target t m

/-- A pair of commands is snap-compatible when the command-level lerp,
with every point snapped, returns the target verbatim: a Start target
must face a Start, and an open End target must face a Quadratic or a
Cubic (those two arms return the target unchanged; every other arm
rebuilds an End with the close flag forced to `true`). -/
def snapCompat (f g : Event) : Bool :=
  match g with
  | .begin _ =>
      match f with
      | .begin _ => true
      | _ => false
  | .end_ _ _ c =>
      c ||
      (match f with
       | .quadratic _ _ _ => true
       | .cubic _ _ _ _ => true
       | _ => false)
  | _ => true

/-- Equal length and positional snap-compatibility of every pair. -/
def snapAligned (xs ys : Path) : Bool :=
  (xs.length == ys.length) &&
  (xs.zip ys).all fun fg => snapCompat fg.1 fg.2

/-- Square-outline path (5 commands) used as a concrete `from`. -/
def C2from : Path :=
  [.begin ⟨0, 0⟩, .line ⟨0, 0⟩ ⟨4, 0⟩, .line ⟨4, 0⟩ ⟨4, 4⟩,
   .line ⟨4, 4⟩ ⟨0, 4⟩, .end_ ⟨0, 4⟩ ⟨0, 0⟩ true]

/-- Segment path (3 commands) used as a concrete `to`. -/
def C2to : Path :=
  [.begin ⟨0, 0⟩, .line ⟨0, 0⟩ ⟨10, 0⟩, .end_ ⟨10, 0⟩ ⟨0, 0⟩ true]

/-- The merge of `C2from` against the really-built padded `C2to` at
`t = 1/2` with a large margin (value checked by evaluation below). -/
def C2merged : Path :=
  [.begin ⟨0, 0⟩, .line ⟨0, 0⟩ ⟨7, 0⟩, .line ⟨7, 0⟩ ⟨7, 2⟩,
   .line ⟨7, 2⟩ ⟨5, 2⟩, .end_ ⟨5, 2⟩ ⟨0, 0⟩ true]

/-- The path the engine returns on the `C2from`/`C2to` input: the
converged removal re-welds the seam, so the final `End` restarts at the
surviving endpoint `(7, 0)`. -/
def C2result : Path :=
  [.begin ⟨0, 0⟩, .line ⟨0, 0⟩ ⟨7, 0⟩, .end_ ⟨7, 0⟩ ⟨0, 0⟩ true]

/-- Minimal well-formed path: `[Start, End]`. -/
def C3from : Path := [.begin ⟨0, 0⟩, .end_ ⟨0, 0⟩ ⟨0, 0⟩ true]

/-- Triangle-outline path (3 commands). -/
def C3to : Path :=
  [.begin ⟨0, 0⟩, .line ⟨0, 0⟩ ⟨1, 0⟩, .end_ ⟨1, 0⟩ ⟨0, 0⟩ true]

/-- Three-command path whose midpoint command is a `Line`. -/
def C3wfrom : Path :=
  [.begin ⟨0, 0⟩, .line ⟨0, 0⟩ ⟨2, 0⟩, .end_ ⟨2, 0⟩ ⟨0, 0⟩ true]

/-- Four-command target path. -/
def C3wto : Path :=
  [.begin ⟨0, 0⟩, .line ⟨0, 0⟩ ⟨1, 0⟩, .line ⟨1, 0⟩ ⟨1, 1⟩,
   .end_ ⟨1, 1⟩ ⟨0, 0⟩ true]

/-! ### Point-level lemmas -/

theorem Point.lerp_self (a : Point) (t : ℚ) : Point.lerp a a t = a := by
  cases a
  simp only [Point.lerp, Point.mk.injEq]
  constructor <;> ring

theorem Point.lerp_one (a b : Point) : Point.lerp a b 1 = b := by
  cases b
  simp only [Point.lerp, Point.mk.injEq]
  constructor <;> ring

theorem Point.lerp_zero (a b : Point) : Point.lerp a b 0 = a := by
  cases a
  simp only [Point.lerp, Point.mk.injEq]
  constructor <;> ring

theorem Point.dist2_self (a : Point) : Point.dist2 a a = 0 := by
  simp [Point.dist2]

theorem Point.distGT_self (a : Point) (p : ℚ) (hp : 0 ≤ p) :
    Point.distGT a a p = false := by
  simp only [Point.distGT, Point.dist2_self, decide_eq_false_iff_not]
  rintro (h | h)
  · exact absurd hp (not_le.mpr h)
  · exact absurd h (not_lt.mpr (sq_nonneg p))

theorem point_fst_true {a b : Point} {t p : ℚ}
    (h : (Point.lerped a b t p).1 = true) :
    (Point.lerped a b t p).2 = b ∧ 0 ≤ p := by
  simp only [Point.lerped] at *
  split at h
  · simp at h
  · rename_i hgt
    rw [if_neg hgt]
    refine ⟨rfl, ?_⟩
    simp only [Point.distGT, decide_eq_true_eq] at hgt
    by_contra hp
    exact hgt (Or.inl (not_le.mp hp))

theorem point_lerped_self {p : ℚ} (hp : 0 ≤ p) (b : Point) (t : ℚ) :
    Point.lerped b b t p = (true, b) := by
  simp only [Point.lerped, Point.lerp_self]
  rw [Point.distGT_self b p hp]
  simp

theorem point_lerped_one {p : ℚ} (hp : 0 ≤ p) (a b : Point) :
    Point.lerped a b 1 p = (true, b) := by
  simp only [Point.lerped, Point.lerp_one]
  rw [Point.distGT_self b p hp]
  simp

theorem point_mono {a b : Point} {t p1 p2 : ℚ} (hm : p1 ≤ p2)
    (h : (Point.lerped a b t p1).1 = true) :
    (Point.lerped a b t p2).1 = true := by
  simp only [Point.lerped] at *
  split at h
  · simp at h
  · rename_i hgt
    simp only [Point.distGT, decide_eq_true_eq, not_or, not_lt] at hgt
    split
    · rename_i hgt2
      simp only [Point.distGT, decide_eq_true_eq] at hgt2
      rcases hgt2 with h2 | h2
      · exact absurd (le_trans hgt.1 hm) (not_le.mpr h2)
      · exact absurd h2 (not_lt.mpr (le_trans hgt.2
          (pow_le_pow_left₀ hgt.1 hm 2)))
    · rfl

/-! ### Event-level lemmas -/

theorem event_fst_nonneg {f g : Event} {t p : ℚ}
    (h : (Event.lerped f g t p).1 = true) : 0 ≤ p := by
  cases f <;> cases g <;>
    simp only [Event.lerped, lerp_other, Bool.and_eq_true] at h <;>
    first
      | exact (point_fst_true h).2
      | exact (point_fst_true h.1).2
      | exact (point_fst_true h.1.1).2
      | exact (point_fst_true h.1.1.1).2

theorem event_lerped_self {p : ℚ} (hp : 0 ≤ p) (e : Event) (t : ℚ) :
    (Event.lerped e e t p).1 = true := by
  cases e <;> simp [Event.lerped, lerp_other, point_lerped_self hp]

theorem lerp_other_idem {w x y z : Point} {g : Event} {t p : ℚ} {e : Event}
    (h : lerp_other w x y z g t p = (true, e)) :
    (Event.lerped e g t p).1 = true := by
  cases g <;>
    simp only [lerp_other, Prod.mk.injEq, Bool.and_eq_true] at h
  case begin b =>
    obtain ⟨hf, he⟩ := h
    obtain ⟨hb, hp⟩ := point_fst_true hf
    subst he
    rw [hb]
    simp [Event.lerped, lerp_other, point_lerped_self hp]
  case line b1 b2 =>
    obtain ⟨⟨hf1, hf2⟩, he⟩ := h
    obtain ⟨hb1, hp⟩ := point_fst_true hf1
    obtain ⟨hb2, -⟩ := point_fst_true hf2
    subst he
    rw [hb1, hb2]
    simp [Event.lerped, lerp_other, point_lerped_self hp]
  case quadratic b1 bc b2 =>
    obtain ⟨⟨⟨hf1, hfc⟩, hf2⟩, he⟩ := h
    obtain ⟨hb1, hp⟩ := point_fst_true hf1
    obtain ⟨hbc, -⟩ := point_fst_true hfc
    obtain ⟨hb2, -⟩ := point_fst_true hf2
    subst he
    rw [hb1, hbc, hb2]
    simp [Event.lerped, lerp_other, point_lerped_self hp]
  case cubic b1 bc1 bc2 b2 =>
    obtain ⟨⟨⟨⟨hf1, hfc1⟩, hfc2⟩, hf2⟩, he⟩ := h
    obtain ⟨hb1, hp⟩ := point_fst_true hf1
    obtain ⟨hbc1, -⟩ := point_fst_true hfc1
    obtain ⟨hbc2, -⟩ := point_fst_true hfc2
    obtain ⟨hb2, -⟩ := point_fst_true hf2
    subst he
    rw [hb1, hbc1, hbc2, hb2]
    simp [Event.lerped, lerp_other, point_lerped_self hp]
  case end_ bl bf c =>
    obtain ⟨⟨hfl, hff⟩, he⟩ := h
    obtain ⟨hbl, hp⟩ := point_fst_true hfl
    obtain ⟨hbf, -⟩ := point_fst_true hff
    subst he
    rw [hbl, hbf]
    simp [Event.lerped, lerp_other, point_lerped_self hp]

theorem event_mono {f g : Event} {t p1 p2 : ℚ} (hm : p1 ≤ p2)
    (h : (Event.lerped f g t p1).1 = true) :
    (Event.lerped f g t p2).1 = true := by
  cases f <;> cases g <;>
    simp only [Event.lerped, lerp_other, Bool.and_eq_true] at h ⊢ <;>
    first
      | exact point_mono hm h
      | exact ⟨point_mono hm h.1, point_mono hm h.2⟩
      | exact ⟨⟨point_mono hm h.1.1, point_mono hm h.1.2⟩,
          point_mono hm h.2⟩
      | exact ⟨⟨⟨point_mono hm h.1.1.1, point_mono hm h.1.1.2⟩,
          point_mono hm h.1.2⟩, point_mono hm h.2⟩

theorem pair_fst_true {α : Type} {pr : Bool × α} (h : pr.1 = true) :
    pr = (true, pr.2) := by
  obtain ⟨b, e⟩ := pr
  cases b
  · simp at h
  · rfl

theorem event_idem {f g : Event} {t p : ℚ}
    (h : (Event.lerped f g t p).1 = true) :
    (Event.lerped (Event.lerped f g t p).2 g t p).1 = true := by
  cases f with
  | begin a =>
      simp only [Event.lerped] at h ⊢
      exact lerp_other_idem (pair_fst_true h)
  | line a1 a2 =>
      cases g with
      | begin b =>
          simp only [Event.lerped, Bool.and_eq_true] at h ⊢
          obtain ⟨h1, h2⟩ := h
          obtain ⟨hb1, hp⟩ := point_fst_true h1
          obtain ⟨hb2, -⟩ := point_fst_true h2
          rw [hb1, hb2]
          simp [point_lerped_self hp]
      | line b1 b2 =>
          simp only [Event.lerped] at h ⊢
          exact lerp_other_idem (pair_fst_true h)
      | quadratic b1 bc b2 =>
          simp only [Event.lerped] at h ⊢
          exact lerp_other_idem (pair_fst_true h)
      | cubic b1 bc1 bc2 b2 =>
          simp only [Event.lerped] at h ⊢
          exact lerp_other_idem (pair_fst_true h)
      | end_ bl bf c =>
          simp only [Event.lerped] at h ⊢
          exact lerp_other_idem (pair_fst_true h)
  | quadratic a1 ac a2 =>
      cases g with
      | begin b =>
          simp only [Event.lerped, Bool.and_eq_true] at h ⊢
          obtain ⟨⟨h1, hc⟩, h2⟩ := h
          obtain ⟨hb1, hp⟩ := point_fst_true h1
          obtain ⟨hbc, -⟩ := point_fst_true hc
          obtain ⟨hb2, -⟩ := point_fst_true h2
          rw [hb1, hbc, hb2]
          simp [point_lerped_self hp]
      | line b1 b2 =>
          simp only [Event.lerped] at h ⊢
          have h' := h
          simp only [Bool.and_eq_true] at h'
          have hp := (point_fst_true h'.1.1).2
          simp only [h, if_true]
          simp [lerp_other, point_lerped_self hp]
      | quadratic b1 bc b2 =>
          simp only [Event.lerped] at h ⊢
          exact lerp_other_idem (pair_fst_true h)
      | cubic b1 bc1 bc2 b2 =>
          simp only [Event.lerped] at h ⊢
          exact lerp_other_idem (pair_fst_true h)
      | end_ bl bf c =>
          simp only [Event.lerped] at h ⊢
          have h' := h
          simp only [Bool.and_eq_true] at h'
          have hp := (point_fst_true h'.1.1).2
          simp only [h, if_true]
          simp [lerp_other, point_lerped_self hp]
  | cubic a1 ac1 ac2 a2 =>
      cases g with
      | begin b =>
          simp only [Event.lerped, Bool.and_eq_true] at h ⊢
          obtain ⟨⟨⟨h1, hc1⟩, hc2⟩, h2⟩ := h
          obtain ⟨hb1, hp⟩ := point_fst_true h1
          obtain ⟨hbc1, -⟩ := point_fst_true hc1
          obtain ⟨hbc2, -⟩ := point_fst_true hc2
          obtain ⟨hb2, -⟩ := point_fst_true h2
          rw [hb1, hbc1, hbc2, hb2]
          simp [point_lerped_self hp]
      | line b1 b2 =>
          simp only [Event.lerped] at h ⊢
          have h' := h
          simp only [Bool.and_eq_true] at h'
          have hp := (point_fst_true h'.1.1.1).2
          simp only [h, if_true]
          simp [lerp_other, point_lerped_self hp]
      | quadratic b1 bc b2 =>
          simp only [Event.lerped] at h ⊢
          have h' := h
          simp only [Bool.and_eq_true] at h'
          have hp := (point_fst_true h'.1.1.1).2
          simp only [h, if_true]
          simp [lerp_other, point_lerped_self hp]
      | cubic b1 bc1 bc2 b2 =>
          simp only [Event.lerped] at h ⊢
          exact lerp_other_idem (pair_fst_true h)
      | end_ bl bf c =>
          simp only [Event.lerped] at h ⊢
          have h' := h
          simp only [Bool.and_eq_true] at h'
          have hp := (point_fst_true h'.1.1.1).2
          simp only [h, if_true]
          simp [lerp_other, point_lerped_self hp]
  | end_ l lf c =>
      cases g with
      | begin b =>
          simp only [Event.lerped, Bool.and_eq_true] at h ⊢
          obtain ⟨hl, hf⟩ := h
          obtain ⟨hbl, hp⟩ := point_fst_true hl
          obtain ⟨hbf, -⟩ := point_fst_true hf
          rw [hbl, hbf]
          simp [point_lerped_self hp]
      | line b1 b2 =>
          simp only [Event.lerped] at h ⊢
          exact lerp_other_idem (pair_fst_true h)
      | quadratic b1 bc b2 =>
          simp only [Event.lerped] at h ⊢
          exact lerp_other_idem (pair_fst_true h)
      | cubic b1 bc1 bc2 b2 =>
          simp only [Event.lerped] at h ⊢
          exact lerp_other_idem (pair_fst_true h)
      | end_ bl bf c2 =>
          simp only [Event.lerped] at h ⊢
          exact lerp_other_idem (pair_fst_true h)

/-! ### Path-level lemmas -/

theorem foldl_and_all {α β : Type} (f : α → Bool × β) (l : List α)
    (b : Bool) :
    (l.map f).foldl (fun acc r => acc && r.1) b =
      (b && l.all fun x => (f x).1) := by
  induction l generalizing b with
  | nil => simp
  | cons x xs ih => simp [ih, Bool.and_assoc]

/-- The flag of the equal-length merge is the AND of the per-command
flags, and its path is the list of per-command results. -/
theorem lerp_equal_sides_eq (xs ys : Path) (t p : ℚ) :
    lerp_equal_sides xs ys t p =
      ((xs.zip ys).all (fun fg => (Event.lerped fg.1 fg.2 t p).1),
       (xs.zip ys).map (fun fg => (Event.lerped fg.1 fg.2 t p).2)) := by
  simp only [lerp_equal_sides]
  rw [foldl_and_all]
  simp [List.map_map, Function.comp]

theorem merge_len (xs ys : Path) (t p : ℚ) :
    (lerp_equal_sides xs ys t p).2.length = min xs.length ys.length := by
  simp [lerp_equal_sides_eq]

theorem merge_mono {xs ys : Path} {t p1 p2 : ℚ} (hm : p1 ≤ p2)
    (h : (lerp_equal_sides xs ys t p1).1 = true) :
    (lerp_equal_sides xs ys t p2).1 = true := by
  simp only [lerp_equal_sides_eq, List.all_eq_true] at h ⊢
  intro fg hfg
  exact event_mono hm (h fg hfg)

theorem merge_self {p : ℚ} (hp : 0 ≤ p) (xs : Path) (t : ℚ) :
    (lerp_equal_sides xs xs t p).1 = true := by
  induction xs with
  | nil => simp [lerp_equal_sides_eq]
  | cons x xs ih =>
      simp only [lerp_equal_sides_eq, List.zip_cons_cons, List.all_cons,
        Bool.and_eq_true] at ih ⊢
      exact ⟨event_lerped_self hp _ _, ih⟩

theorem merge_true_nonneg (xs ys : Path) (t p : ℚ) (hx : xs ≠ [])
    (hy : ys ≠ [])
    (h : (lerp_equal_sides xs ys t p).1 = true) : 0 ≤ p := by
  cases xs with
  | nil => exact absurd rfl hx
  | cons x xs =>
      cases ys with
      | nil => exact absurd rfl hy
      | cons y ys =>
          simp only [lerp_equal_sides_eq, List.zip_cons_cons, List.all_cons,
            Bool.and_eq_true] at h
          exact event_fst_nonneg h.1

theorem merge_idem {t p : ℚ} :
    ∀ (xs ys : Path), xs.length = ys.length →
    (lerp_equal_sides xs ys t p).1 = true →
    (lerp_equal_sides (lerp_equal_sides xs ys t p).2 ys t p).1 = true := by
  intro xs
  induction xs with
  | nil =>
      intro ys hlen h
      cases ys with
      | nil => simpa using h
      | cons y ys => simp at hlen
  | cons x xs ih =>
      intro ys hlen h
      cases ys with
      | nil => simp at hlen
      | cons y ys =>
          simp only [lerp_equal_sides_eq, List.zip_cons_cons, List.all_cons,
            List.map_cons, Bool.and_eq_true] at h ⊢
          obtain ⟨h1, h2⟩ := h
          refine ⟨event_idem h1, ?_⟩
          have hih := ih ys (by simpa using hlen)
            (by simp only [lerp_equal_sides_eq]; exact h2)
          simpa only [lerp_equal_sides_eq] using hih

/-- The canonical engine never panics: every `assert!` holds and every
`unwrap` succeeds on every pair of inputs. -/
theorem lerped_total (xs ys : Path) (t p : ℚ) :
    ∃ r, Path.lerped xs ys t p = some r := by
  unfold Path.lerped
  rcases lt_trichotomy xs.length ys.length with hlt | heq | hgt
  · rw [Nat.compare_eq_lt.mpr hlt]
    unfold lerp_less_sides
    rw [if_pos hlt]
    cases xs with
    | nil =>
        cases ys with
        | nil => simp at hlt
        | cons y ys => exact ⟨_, rfl⟩
    | cons x xs => exact ⟨_, rfl⟩
  · rw [Nat.compare_eq_eq.mpr heq]
    exact ⟨_, rfl⟩
  · rw [Nat.compare_eq_gt.mpr hgt]
    unfold lerp_greater_sides
    rw [if_pos hgt]
    cases ys with
    | nil =>
        cases xs with
        | nil => simp at hgt
        | cons x xs => exact ⟨_, rfl⟩
    | cons y ys => exact ⟨_, rfl⟩

theorem map_zip_eq_zipWith {α β γ : Type} (f : α → β → γ) :
    ∀ (as : List α) (bs : List β),
      (as.zip bs).map (fun ab => f ab.1 ab.2) = List.zipWith f as bs := by
  intro as
  induction as with
  | nil => intro bs; simp
  | cons a as ih =>
      intro bs
      cases bs with
      | nil => simp
      | cons b bs => simp [ih]

theorem all_map_id {α : Type} (f : α → Bool) (l : List α) :
    (l.map f).all id = l.all f := by
  induction l <;> simp [*]

/-! ### Claim theorems -/

/-- C1: for margin ≥ 0, whenever the Euclidean distance between
`lerp_point(p, q, t)` and `q` is at most `margin` (equivalently, the
squared distance is at most `margin ^ 2`), the point-level checked lerp
returns exactly `q` with flag `true`; otherwise it returns the raw lerped
point `(p.x + (q.x - p.x) * t, p.y + (q.y - p.y) * t)` with flag
`false`. -/
theorem C1_point_checked_lerp (a b : Point) (t m : ℚ) (hm : 0 ≤ m) :
    (Point.dist2 (Point.lerp a b t) b ≤ m ^ 2 →
      Point.lerped a b t m = (true, b)) ∧
    (m ^ 2 < Point.dist2 (Point.lerp a b t) b →
      Point.lerped a b t m = (false,
        ⟨a.x + (b.x - a.x) * t, a.y + (b.y - a.y) * t⟩)) := by
  constructor
  · intro hle
    have hgt : Point.distGT (Point.lerp a b t) b m = false := by
      simp only [Point.distGT, decide_eq_false_iff_not]
      rintro (hc | hc)
      · exact absurd hm (not_le.mpr hc)
      · exact absurd hle (not_le.mpr hc)
    simp only [Point.lerped]
    rw [hgt]
    simp
  · intro hlt
    have hgt : Point.distGT (Point.lerp a b t) b m = true := by
      simp only [Point.distGT, decide_eq_true_eq]
      exact Or.inr hlt
    simp only [Point.lerped]
    rw [hgt]
    simp only [if_true, Prod.mk.injEq, true_and]
    simp only [Point.lerp, Point.mk.injEq]
    constructor <;> ring

theorem C1_point_checked_lerp_witness :
    Point.lerped ⟨0, 0⟩ ⟨3, 0⟩ 0 1 =
      (false, ⟨0 + (3 - 0) * 0, 0 + (0 - 0) * 0⟩) ∧
    Point.lerped ⟨0, 0⟩ ⟨3, 0⟩ 0 4 = (true, ⟨3, 0⟩) := by
  constructor
  · exact (C1_point_checked_lerp ⟨0, 0⟩ ⟨3, 0⟩ 0 1 (by norm_num)).2
      (by with_unfolding_all decide)
  · exact (C1_point_checked_lerp ⟨0, 0⟩ ⟨3, 0⟩ 0 4 (by norm_num)).1
      (by with_unfolding_all decide)

/-- C4: the canonical path lerp (`impl Lerp for &Path` in
`src/path_lerping.rs`) is total: for every pair of paths (well-formed or
not, in particular the degenerate single-command Start-only path) it
returns a valid `(flag, Path)` result — no assertion, unwrap or
unreachable branch is reached, since `none` models every panic. -/
theorem C4_lerp_path_total (xs ys : Path) (t p : ℚ) :
    (Path.lerped xs ys t p).isSome = true := by
  obtain ⟨r, hr⟩ := lerped_total xs ys t p
  simp [hr]

/-- C5: for equal command counts, the equal-length merge pairs commands
positionally, lerps each pair, collects results in order (same command
count), and returns the AND of every per-command flag. -/
theorem C5_equal_merge_pointwise (xs ys : Path) (t p : ℚ)
    (hlen : xs.length = ys.length) :
    (lerp_equal_sides xs ys t p).2 =
      List.zipWith (fun a b => (Event.lerped a b t p).2) xs ys ∧
    (lerp_equal_sides xs ys t p).2.length = xs.length ∧
    (lerp_equal_sides xs ys t p).1 =
      (List.zipWith (fun a b => (Event.lerped a b t p).1) xs ys).all id := by
  refine ⟨?_, ?_, ?_⟩
  · rw [lerp_equal_sides_eq]
    exact map_zip_eq_zipWith (fun a b => (Event.lerped a b t p).2) xs ys
  · rw [merge_len, hlen, min_self]
  · rw [lerp_equal_sides_eq,
      ← map_zip_eq_zipWith (fun a b => (Event.lerped a b t p).1) xs ys,
      all_map_id]

theorem C5_equal_merge_pointwise_witness :
    (lerp_equal_sides [Event.begin ⟨0, 0⟩] [Event.begin ⟨1, 0⟩]
        (1 / 2) 0).2 =
      List.zipWith (fun a b => (Event.lerped a b (1 / 2) 0).2)
        [Event.begin ⟨0, 0⟩] [Event.begin ⟨1, 0⟩] ∧
    (lerp_equal_sides [Event.begin ⟨0, 0⟩] [Event.begin ⟨1, 0⟩]
        (1 / 2) 0).2.length = 1 ∧
    (lerp_equal_sides [Event.begin ⟨0, 0⟩] [Event.begin ⟨1, 0⟩]
        (1 / 2) 0).1 =
      (List.zipWith (fun a b => (Event.lerped a b (1 / 2) 0).1)
        [Event.begin ⟨0, 0⟩] [Event.begin ⟨1, 0⟩]).all id :=
  C5_equal_merge_pointwise [Event.begin ⟨0, 0⟩] [Event.begin ⟨1, 0⟩]
    (1 / 2) 0 rfl

/-- C7: convergence is idempotent for the canonical path lerp — if
`lerp_path(from, to, t, margin)` converges with result `P`, then
`lerp_path(P, to, t, margin)` converges again. -/
theorem C7_convergence_idempotent {xs ys : Path} {t p : ℚ} {P : Path}
    (h : Path.lerped xs ys t p = some (true, P)) :
    ∃ Q, Path.lerped P ys t p = some (true, Q) := by
  unfold Path.lerped at h
  rcases lt_trichotomy xs.length ys.length with hlt | heq | hgt
  · rw [Nat.compare_eq_lt.mpr hlt] at h
    unfold lerp_less_sides at h
    rw [if_pos hlt] at h
    rcases hhead : xs.head?.orElse (fun _ => ys.head?) with - | e
    · simp [hhead] at h
    · simp only [hhead] at h
      have h2 := Option.some.inj h
      have hlen :
          (List.replicate (ys.length - xs.length) e ++ xs).length =
            ys.length := by
        simp only [List.length_append, List.length_replicate]
        omega
      have hflag :
          (lerp_equal_sides
            (List.replicate (ys.length - xs.length) e ++ xs) ys t p).1 =
          true := by rw [h2]
      have hP :
          P = (lerp_equal_sides
            (List.replicate (ys.length - xs.length) e ++ xs) ys t p).2 := by
        rw [h2]
      have hidem := merge_idem _ ys hlen hflag
      rw [← hP] at hidem
      have hPlen : P.length = ys.length := by
        rw [hP, merge_len, hlen, min_self]
      refine ⟨(lerp_equal_sides P ys t p).2, ?_⟩
      unfold Path.lerped
      rw [Nat.compare_eq_eq.mpr hPlen]
      exact congrArg some (pair_fst_true hidem)
  · rw [Nat.compare_eq_eq.mpr heq] at h
    have h2 := Option.some.inj h
    have hflag : (lerp_equal_sides xs ys t p).1 = true := by rw [h2]
    have hP : P = (lerp_equal_sides xs ys t p).2 := by rw [h2]
    have hidem := merge_idem xs ys heq hflag
    rw [← hP] at hidem
    have hPlen : P.length = ys.length := by
      rw [hP, merge_len, heq, min_self]
    refine ⟨(lerp_equal_sides P ys t p).2, ?_⟩
    unfold Path.lerped
    rw [Nat.compare_eq_eq.mpr hPlen]
    exact congrArg some (pair_fst_true hidem)
  · rw [Nat.compare_eq_gt.mpr hgt] at h
    unfold lerp_greater_sides at h
    rw [if_pos hgt] at h
    rcases hhead : ys.head?.orElse (fun _ => xs.head?) with - | e
    · simp [hhead] at h
    · simp only [hhead] at h
      have h2 := Option.some.inj h
      rw [Prod.mk.injEq] at h2
      obtain ⟨hflag, hP⟩ := h2
      rw [hflag] at hP
      simp only [if_true] at hP
      have hxs : xs ≠ [] := by
        intro hnil
        rw [hnil] at hgt
        simp at hgt
      have hpad :
          (List.replicate (xs.length - ys.length) e ++ ys) ≠ [] := by
        apply List.ne_nil_of_length_pos
        simp only [List.length_append, List.length_replicate]
        omega
      have hp := merge_true_nonneg _ _ _ _ hxs hpad hflag
      have hself := merge_self hp ys t
      refine ⟨(lerp_equal_sides ys ys t p).2, ?_⟩
      rw [← hP]
      unfold Path.lerped
      rw [Nat.compare_eq_eq.mpr rfl]
      exact congrArg some (pair_fst_true hself)

theorem C7_convergence_idempotent_witness :
    ∃ Q, Path.lerped [Event.begin ⟨0, 0⟩] [Event.begin ⟨0, 0⟩]
      (1 / 2) 1 = some (true, Q) :=
  @C7_convergence_idempotent [Event.begin ⟨0, 0⟩] [Event.begin ⟨0, 0⟩]
    (1 / 2) 1 [Event.begin ⟨0, 0⟩] (by with_unfolding_all decide)

/-- C9: relaxing the margin preserves convergence — for fixed paths and
`t`, if the canonical path lerp converges at margin `p1` and
`p1 ≤ p2`, it also converges at margin `p2`. -/
theorem C9_margin_monotone {xs ys : Path} {t p1 p2 : ℚ} {P : Path}
    (hm : p1 ≤ p2) (h : Path.lerped xs ys t p1 = some (true, P)) :
    ∃ Q, Path.lerped xs ys t p2 = some (true, Q) := by
  unfold Path.lerped at h ⊢
  rcases lt_trichotomy xs.length ys.length with hlt | heq | hgt
  · rw [Nat.compare_eq_lt.mpr hlt] at h ⊢
    unfold lerp_less_sides at h ⊢
    rw [if_pos hlt] at h ⊢
    rcases hhead : xs.head?.orElse (fun _ => ys.head?) with - | e
    · simp [hhead] at h
    · simp only [hhead] at h ⊢
      have h2 := Option.some.inj h
      have hflag :
          (lerp_equal_sides
            (List.replicate (ys.length - xs.length) e ++ xs) ys t p1).1 =
          true := by rw [h2]
      have hflag2 := merge_mono hm hflag
      exact ⟨_, congrArg some (pair_fst_true hflag2)⟩
  · rw [Nat.compare_eq_eq.mpr heq] at h ⊢
    have h2 := Option.some.inj h
    have hflag : (lerp_equal_sides xs ys t p1).1 = true := by rw [h2]
    have hflag2 := merge_mono hm hflag
    exact ⟨_, congrArg some (pair_fst_true hflag2)⟩
  · rw [Nat.compare_eq_gt.mpr hgt] at h ⊢
    unfold lerp_greater_sides at h ⊢
    rw [if_pos hgt] at h ⊢
    rcases hhead : ys.head?.orElse (fun _ => xs.head?) with - | e
    · simp [hhead] at h
    · simp only [hhead] at h ⊢
      have h2 := Option.some.inj h
      rw [Prod.mk.injEq] at h2
      obtain ⟨hflag, -⟩ := h2
      have hflag2 := merge_mono hm hflag
      refine ⟨ys, ?_⟩
      rw [hflag2]
      simp

theorem C9_margin_monotone_witness :
    ∃ Q, Path.lerped [Event.begin ⟨0, 0⟩] [Event.begin ⟨0, 0⟩]
      (1 / 2) 2 = some (true, Q) :=
  @C9_margin_monotone [Event.begin ⟨0, 0⟩] [Event.begin ⟨0, 0⟩]
    (1 / 2) 1 2 [Event.begin ⟨0, 0⟩]
    (by norm_num) (by with_unfolding_all decide)

/-! ### Lemmas about the `src/main.rs` variant -/

theorem fromIterGo_append (A B : List Event) :
    ∀ (s : Point × Point),
      fromIterGo s (A ++ B) =
        fromIterGo s A ++ fromIterGo (A.foldl stepState s) B := by
  induction A with
  | nil => intro s; simp [fromIterGo]
  | cons e A ih => intro s; simp [fromIterGo, ih]

theorem fromIterGo_length (l : List Event) :
    ∀ (s : Point × Point), (fromIterGo s l).length = l.length := by
  induction l with
  | nil => intro s; rfl
  | cons e l ih => intro s; simp [fromIterGo, ih]

theorem fromIter_length (l : List Event) : (fromIter l).length = l.length :=
  fromIterGo_length l _

/-- A path that the builder round-trip leaves unchanged is unchanged on
its prefix and, from the carried state, on its suffix. -/
theorem fromIter_fix_parts {l : List Event} (hfix : fromIter l = l)
    (n : Nat) :
    fromIterGo (⟨0, 0⟩, ⟨0, 0⟩) (l.take n) = l.take n ∧
    fromIterGo ((l.take n).foldl stepState (⟨0, 0⟩, ⟨0, 0⟩)) (l.drop n) =
      l.drop n := by
  have happ := fromIterGo_append (l.take n) (l.drop n) (⟨0, 0⟩, ⟨0, 0⟩)
  rw [List.take_append_drop] at happ
  have happ2 : l.take n ++ l.drop n =
      fromIterGo (⟨0, 0⟩, ⟨0, 0⟩) (l.take n) ++
        fromIterGo ((l.take n).foldl stepState (⟨0, 0⟩, ⟨0, 0⟩))
          (l.drop n) := by
    rw [← happ, List.take_append_drop]
    exact hfix.symm
  obtain ⟨h1, h2⟩ := List.append_inj happ2
    (by rw [fromIterGo_length])
  exact ⟨h1.symm, h2.symm⟩

/-- Replaying zero-length line segments from their shared endpoint leaves
both the events and the builder state unchanged (the stored start point
of each inserted segment is ignored). -/
theorem fromIterGo_replicate_line (b u f : Point) :
    ∀ (d : Nat),
      fromIterGo (b, f) (List.replicate d (Event.line u b)) =
        List.replicate d (Event.line b b) ∧
      (List.replicate d (Event.line u b)).foldl stepState (b, f) =
        (b, f) := by
  intro d
  induction d with
  | zero => simp [fromIterGo]
  | succ d ih =>
      refine ⟨?_, ?_⟩
      · simp only [List.replicate_succ, fromIterGo, reEvent, stepState]
        rw [ih.1]
      · simp only [List.replicate_succ, List.foldl_cons, stepState]
        exact ih.2

theorem replicate_comm_cons {α : Type} (d : Nat) (a : α)
    (rest : List α) :
    List.replicate d a ++ a :: rest = a :: (List.replicate d a ++ rest) := by
  induction d with
  | zero => rfl
  | succ d ih => simp [List.replicate_succ, ih]

/-- Splicing `d ≥ 1` line segments ending at `b` in front of the `Line`
at index `i` of an unchanged path, then rebuilding, keeps that `Line` at
its place and turns the `d` surplus segments into zero-length lines at
its endpoint `b` — the inserted commands effectively land after the
midpoint command. -/
theorem fromIter_insert_lines (l : List Event) (i d : Nat) (q b u : Point)
    (hfix : fromIter l = l)
    (hi : l.get? i = some (Event.line q b))
    (hd : 1 ≤ d) :
    fromIter (l.take i ++ List.replicate d (Event.line u b) ++ l.drop i) =
      l.take (i + 1) ++ List.replicate d (Event.line b b) ++
        l.drop (i + 1) := by
  obtain ⟨hiLT, hget⟩ := List.get?_eq_some.mp hi
  obtain ⟨d2, rfl⟩ : ∃ d2, d = d2 + 1 := ⟨d - 1, by omega⟩
  obtain ⟨htake, hdrop⟩ := fromIter_fix_parts hfix i
  have hgetElem : l[i] = Event.line q b := hget
  have hdropEq : l.drop i = Event.line q b :: l.drop (i + 1) := by
    rw [List.drop_eq_getElem_cons hiLT, hgetElem]
  rw [hdropEq] at hdrop
  simp only [fromIterGo, List.cons.injEq] at hdrop
  obtain ⟨hre, hrest⟩ := hdrop
  simp only [reEvent, Event.line.injEq] at hre
  simp only [stepState] at hrest
  have htakeSucc : l.take (i + 1) = l.take i ++ [Event.line q b] := by
    rw [List.take_succ, List.getElem?_eq_getElem hiLT, hgetElem]
    rfl
  show fromIterGo (⟨0, 0⟩, ⟨0, 0⟩) _ = _
  rw [List.append_assoc, fromIterGo_append, htake, fromIterGo_append,
    List.replicate_succ]
  simp only [fromIterGo, List.foldl_cons, reEvent, stepState]
  rw [hre.1, (fromIterGo_replicate_line b u _ d2).1,
    (fromIterGo_replicate_line b u _ d2).2, hdropEq]
  simp only [fromIterGo, reEvent, stepState]
  rw [hrest, htakeSucc, List.replicate_succ]
  simp only [List.append_assoc, List.cons_append, List.singleton_append,
    List.nil_append]
  rw [replicate_comm_cons d2 (Event.line b b) (l.drop (i + 1))]

theorem mapEvents_length {t m : ℚ} :
    ∀ {l : List (Event × Event)} {rs : List (Event × Bool)},
      mapEvents l t m = some rs → rs.length = l.length := by
  intro l
  induction l with
  | nil =>
      intro rs h
      simp only [mapEvents, Option.some.injEq] at h
      simp [← h]
  | cons fg rest ih =>
      intro rs h
      simp only [mapEvents] at h
      rcases h1 : lerpEventMain fg.1 fg.2 t m with - | r
      · rw [h1] at h
        simp at h
      · rw [h1] at h
        rcases h2 : mapEvents rest t m with - | rs2
        · rw [h2] at h
          simp at h
        · rw [h2] at h
          simp only [Option.some.injEq] at h
          subst h
          simp [ih h2]

theorem lerp_equal_sides_main_some {xs ys : Path} {t m : ℚ}
    {r : Path × Bool}
    (h : lerp_equal_sides_main xs ys t m = some r) :
    xs.length = ys.length ∧ r.1.length = xs.length := by
  unfold lerp_equal_sides_main at h
  split at h
  · rename_i hlen
    rcases h2 : mapEvents (xs.zip ys) t m with - | rs
    · rw [h2] at h
      simp at h
    · rw [h2] at h
      simp only [Option.some.injEq] at h
      subst h
      refine ⟨hlen, ?_⟩
      show (fromIter (rs.map (·.1))).length = xs.length
      rw [fromIter_length, List.length_map, mapEvents_length h2,
        List.length_zip, hlen, min_self]
  · simp at h

/-! ### Remaining claim theorems -/

/-- C2 counterexample: with `from` a 5-command square outline and `to` a
3-command segment path, the engine converges and returns `C2result`; the
builder cannot even hold two verbatim copies of the midpoint command
(rebuilding the spliced stream turns them into one real copy plus
zero-length lines after it), and the returned path differs from removing
the inserted duplicates from the merge result at the insertion index
`to_count/2 = 1`. -/
theorem C2_counterexample :
    lerp_greater_sides_main C2from C2to (1 / 2) 1000 =
      some (C2result, true) ∧
    fromIter (C2to.take 1 ++
        List.replicate 2 (Event.line ⟨0, 0⟩ ⟨10, 0⟩) ++ C2to.drop 1) ≠
      C2to.take 1 ++ List.replicate 2 (Event.line ⟨0, 0⟩ ⟨10, 0⟩) ++
        C2to.drop 1 ∧
    lerp_equal_sides_main C2from
      (fromIter (C2to.take 1 ++
        List.replicate 2 (Event.line ⟨0, 0⟩ ⟨10, 0⟩) ++ C2to.drop 1))
      (1 / 2) 1000 = some (C2merged, true) ∧
    C2result ≠ C2merged.take 1 ++ C2merged.drop 3 := by
  refine ⟨?_, ?_, ?_, ?_⟩ <;> with_unfolding_all decide

/-- C2 (amended): for `to` with a `Line` at its midpoint index
`to_count/2` and unchanged by the builder round-trip, the engine builds
the padded target by splicing `d` copies of that midpoint command into
the event stream and rebuilding — which keeps one copy of the midpoint
`Line` in place and yields `d` zero-length lines after it, at its
endpoint — then merges `from` against it; if the merge converges, `d`
consecutive commands are removed starting at index `from_count/2` (not
the insertion index) and the path is rebuilt, re-welding the seam; the
result has exactly `to_count` commands whenever
`from_count/2 + d ≤ from_count`; if it does not converge the padded
length `from_count` is kept. -/
theorem C2_amended (from_ to_ : Path) (t m : ℚ) (res : Path × Bool)
    (q b : Point)
    (hgt : to_.length < from_.length)
    (hfix : fromIter to_ = to_)
    (hmid : to_.get? (to_.length / 2) = some (Event.line q b))
    (h : lerp_greater_sides_main from_ to_ t m = some res) :
    (res.2 = true →
      (from_.length / 2 + (from_.length - to_.length) ≤ from_.length →
        res.1.length = to_.length) ∧
      ∃ merged,
        lerp_equal_sides_main from_
          (to_.take (to_.length / 2 + 1) ++
            List.replicate (from_.length - to_.length)
              (Event.line b b) ++
            to_.drop (to_.length / 2 + 1)) t m = some (merged, true) ∧
        res.1 = fromIter (merged.take (from_.length / 2) ++
          merged.drop (from_.length / 2 +
            (from_.length - to_.length)))) ∧
    (res.2 = false → res.1.length = from_.length) := by
  have hsplice := fromIter_insert_lines to_ (to_.length / 2)
    (from_.length - to_.length) q b q hfix hmid (by omega)
  unfold lerp_greater_sides_main at h
  rw [if_pos hgt] at h
  simp only [hmid] at h
  rw [hsplice] at h
  rcases hm2 : lerp_equal_sides_main from_
      (to_.take (to_.length / 2 + 1) ++
        List.replicate (from_.length - to_.length) (Event.line b b) ++
        to_.drop (to_.length / 2 + 1)) t m with - | mr
  · rw [hm2] at h
    simp at h
  · rw [hm2] at h
    obtain ⟨merged, flag⟩ := mr
    have hmlen : merged.length = from_.length :=
      (lerp_equal_sides_main_some hm2).2
    cases flag with
    | false =>
        simp only [Bool.false_eq_true, if_false, Option.some.injEq] at h
        subst h
        refine ⟨fun htrue => by simp at htrue, fun _ => hmlen⟩
    | true =>
        simp only [eq_self_iff_true, if_true, Option.some.injEq] at h
        subst h
        refine ⟨fun _ => ⟨fun hd => ?_, merged, rfl, rfl⟩,
          fun hfalse => by simp at hfalse⟩
        show (fromIter (merged.take (from_.length / 2) ++
          merged.drop (from_.length / 2 +
            (from_.length - to_.length)))).length = to_.length
        rw [fromIter_length]
        simp only [List.length_append, List.length_take, List.length_drop]
        omega

theorem C2_amended_witness :
    ((C2result, true).2 = true →
      (C2from.length / 2 + (C2from.length - C2to.length) ≤
          C2from.length →
        (C2result, true).1.length = C2to.length) ∧
      ∃ merged,
        lerp_equal_sides_main C2from
          (C2to.take (C2to.length / 2 + 1) ++
            List.replicate (C2from.length - C2to.length)
              (Event.line ⟨10, 0⟩ ⟨10, 0⟩) ++
            C2to.drop (C2to.length / 2 + 1)) (1 / 2) 1000 =
          some (merged, true) ∧
        (C2result, true).1 =
          fromIter (merged.take (C2from.length / 2) ++
            merged.drop (C2from.length / 2 +
              (C2from.length - C2to.length)))) ∧
    ((C2result, true).2 = false →
      (C2result, true).1.length = C2from.length) :=
  C2_amended C2from C2to (1 / 2) 1000 (C2result, true) ⟨0, 0⟩ ⟨10, 0⟩
    (by decide) (by with_unfolding_all decide) (by decide)
    (by with_unfolding_all decide)

/-- C3 counterexample: on the minimal well-formed 2-command path
`[Start, End]` the midpoint index `from_count/2 = 1` points at the `End`
command, which is not a `Line`, so `lerp_less_sides` in `src/main.rs`
hits `unreachable!()` (modelled as `none`) instead of padding and
delegating to the equal-length merge. -/
theorem C3_counterexample :
    wellFormed C3from = true ∧ wellFormed C3to = true ∧
    C3from.length < C3to.length ∧
    lerp_less_sides_main C3from C3to (1 / 2) 1 = none := by
  refine ⟨by decide, by decide, by decide, ?_⟩
  with_unfolding_all decide

/-- C3 (amended): for `from` unchanged by the builder round-trip, whenever
the command of `from` at the midpoint index `from_count/2` is a `Line`,
the engine splices `d` degenerate zero-length `Line` commands — both
endpoints equal to the `to` point of that `Line` — into the event stream
at the midpoint index and rebuilds; the rebuild keeps the midpoint `Line`
in place, so the degenerate lines land right after it, producing a padded
path of exactly `to_count` commands, and the engine delegates to the
equal-length merge; if the midpoint command is not a `Line` (as for
well-formed paths with fewer than 3 commands) the code panics via
`unreachable!()` instead. -/
theorem C3_amended (from_ to_ : Path) (t m : ℚ) (a b : Point)
    (hlt : from_.length < to_.length)
    (hfix : fromIter from_ = from_)
    (hline : from_.get? (from_.length / 2) = some (.line a b)) :
    lerp_less_sides_main from_ to_ t m =
      lerp_equal_sides_main
        (from_.take (from_.length / 2 + 1) ++
          List.replicate (to_.length - from_.length) (Event.line b b) ++
          from_.drop (from_.length / 2 + 1)) to_ t m ∧
    (from_.take (from_.length / 2 + 1) ++
      List.replicate (to_.length - from_.length) (Event.line b b) ++
      from_.drop (from_.length / 2 + 1)).length = to_.length := by
  have hsplice := fromIter_insert_lines from_ (from_.length / 2)
    (to_.length - from_.length) a b b hfix hline (by omega)
  obtain ⟨hiLT, -⟩ := List.get?_eq_some.mp hline
  constructor
  · unfold lerp_less_sides_main
    rw [if_pos hlt]
    simp only [hline]
    rw [hsplice]
  · simp only [List.length_append, List.length_replicate,
      List.length_take, List.length_drop]
    omega

theorem C3_amended_witness :
    lerp_less_sides_main C3wfrom C3wto (1 / 2) 1 =
      lerp_equal_sides_main
        (C3wfrom.take (C3wfrom.length / 2 + 1) ++
          List.replicate (C3wto.length - C3wfrom.length)
            (Event.line ⟨2, 0⟩ ⟨2, 0⟩) ++
          C3wfrom.drop (C3wfrom.length / 2 + 1)) C3wto (1 / 2) 1 ∧
    (C3wfrom.take (C3wfrom.length / 2 + 1) ++
      List.replicate (C3wto.length - C3wfrom.length)
        (Event.line ⟨2, 0⟩ ⟨2, 0⟩) ++
      C3wfrom.drop (C3wfrom.length / 2 + 1)).length = C3wto.length :=
  C3_amended C3wfrom C3wto (1 / 2) 1 ⟨0, 0⟩ ⟨2, 0⟩ (by decide)
    (by with_unfolding_all decide) (by decide)

/-- C6 counterexample: a `Cubic` command paired against a `Line` whose
points are all within the margin snaps to the `Line`: the produced
produced tag is `line`, not the richer `cubic` required by the claim. -/
theorem C6_counterexample :
    (Event.cubic ⟨0, 0⟩ ⟨0, 0⟩ ⟨0, 0⟩ ⟨0, 0⟩).tag ≠
      (Event.line ⟨0, 0⟩ ⟨1, 0⟩).tag ∧
    (Event.lerped (.cubic ⟨0, 0⟩ ⟨0, 0⟩ ⟨0, 0⟩ ⟨0, 0⟩)
        (.line ⟨0, 0⟩ ⟨1, 0⟩) (1 / 2) 100).2.tag = Tag.line ∧
    Tag.line ≠ Tag.cubic := by
  refine ⟨by decide, ?_, by decide⟩
  with_unfolding_all decide

/-- C6 (amended): a mismatched pair is always reconciled (the function is
total) by substituting endpoint-derived stand-ins; when the per-command
flag is `false`, the produced tag carries the rank of the richer side
under cubic > quadratic > line ≈ end > start; when the flag is `true`,
the command snaps toward the target: its tag is the tag of the target unless
the target is a Start, in which case the self tag is kept. -/
theorem C6_amended (f g : Event) (t p : ℚ) (hne : f.tag ≠ g.tag) :
    ((Event.lerped f g t p).1 = false →
      Tag.rank (Event.lerped f g t p).2.tag =
        max (Tag.rank f.tag) (Tag.rank g.tag)) ∧
    ((Event.lerped f g t p).1 = true →
      (Event.lerped f g t p).2.tag =
        if g.tag = Tag.begin then f.tag else g.tag) := by
  cases f <;> cases g <;>
    first
      | exact absurd rfl hne
      | (refine ⟨fun h => ?_, fun h => ?_⟩ <;>
          simp only [Event.lerped, lerp_other] at h ⊢ <;>
          first
            | (rw [if_neg (by simp only [h]; exact Bool.false_ne_true)]
               simp [Event.tag, Tag.rank, Nat.max_def])
            | (rw [if_pos h]
               simp [Event.tag, Tag.rank, Nat.max_def])
            | simp [h, Event.tag, Tag.rank, Nat.max_def])

theorem C6_amended_witness :
    ((Event.lerped (.quadratic ⟨0, 0⟩ ⟨0, 1⟩ ⟨2, 0⟩)
        (.line ⟨100, 100⟩ ⟨200, 100⟩) (1 / 2) 1).1 = false →
      Tag.rank (Event.lerped (.quadratic ⟨0, 0⟩ ⟨0, 1⟩ ⟨2, 0⟩)
          (.line ⟨100, 100⟩ ⟨200, 100⟩) (1 / 2) 1).2.tag =
        max (Tag.rank (Event.quadratic ⟨0, 0⟩ ⟨0, 1⟩ ⟨2, 0⟩).tag)
          (Tag.rank (Event.line ⟨100, 100⟩ ⟨200, 100⟩).tag)) ∧
    ((Event.lerped (.quadratic ⟨0, 0⟩ ⟨0, 1⟩ ⟨2, 0⟩)
        (.line ⟨100, 100⟩ ⟨200, 100⟩) (1 / 2) 1).1 = true →
      (Event.lerped (.quadratic ⟨0, 0⟩ ⟨0, 1⟩ ⟨2, 0⟩)
          (.line ⟨100, 100⟩ ⟨200, 100⟩) (1 / 2) 1).2.tag =
        if (Event.line ⟨100, 100⟩ ⟨200, 100⟩).tag = Tag.begin then
          (Event.quadratic ⟨0, 0⟩ ⟨0, 1⟩ ⟨2, 0⟩).tag
        else (Event.line ⟨100, 100⟩ ⟨200, 100⟩).tag) :=
  C6_amended (.quadratic ⟨0, 0⟩ ⟨0, 1⟩ ⟨2, 0⟩)
    (.line ⟨100, 100⟩ ⟨200, 100⟩) (1 / 2) 1 (by decide)

/-- Snapped command-level lerp at `t = 1` with margin ≥ 0 for a
snap-compatible pair: the result is exactly the target with flag `true`.
Snap-compatibility asks that a `Start` target faces a `Start`, and that
an open `End` target faces a `Quadratic` or `Cubic` (whose merge arm
returns the target verbatim); a closed `End` and the remaining variants
impose no constraint. -/
theorem event_snap_one {p : ℚ} (hp : 0 ≤ p) {f g : Event}
    (hsnap : snapCompat f g = true) :
    Event.lerped f g 1 p = (true, g) := by
  cases f <;> cases g <;>
    first
      | (simp [snapCompat] at hsnap; done)
      | (rename_i c
         have hc : c = true := by simpa [snapCompat] using hsnap
         subst hc
         simp [Event.lerped, lerp_other, point_lerped_one hp]
         done)
      | (simp [Event.lerped, lerp_other, point_lerped_one hp]
         done)

/-- Merge at `t = 1` with margin ≥ 0 reproduces the target exactly for
snap-aligned paths. -/
theorem merge_snap_one {p : ℚ} (hp : 0 ≤ p) :
    ∀ (xs ys : Path), snapAligned xs ys = true →
      lerp_equal_sides xs ys 1 p = (true, ys) := by
  intro xs
  induction xs with
  | nil =>
      intro ys h
      cases ys with
      | nil => rfl
      | cons y ys => simp [snapAligned] at h
  | cons x xs ih =>
      intro ys h
      cases ys with
      | nil => simp [snapAligned] at h
      | cons y ys =>
          simp only [snapAligned, List.length_cons, List.zip_cons_cons,
            List.all_cons, Bool.and_eq_true, beq_iff_eq,
            Nat.add_right_cancel_iff] at h
          obtain ⟨hlen, hxy, htail⟩ := h
          have hhead := event_snap_one hp hxy
          have h' : snapAligned xs ys = true := by
            simp only [snapAligned, Bool.and_eq_true, beq_iff_eq]
            exact ⟨hlen, htail⟩
          have htl := ih ys h'
          rw [lerp_equal_sides_eq] at htl ⊢
          rw [Prod.mk.injEq] at htl ⊢
          obtain ⟨htl1, htl2⟩ := htl
          constructor
          · simp [List.zip_cons_cons, List.all_cons, hhead, htl1]
          · simp [List.zip_cons_cons, List.map_cons, hhead, htl2]

/-- C8 counterexample: both pairs are well-formed with equal command
counts and margin ≥ 0, yet (i) at `t = 0` the merge does not reproduce
`from` exactly even in exact arithmetic — a point within margin of its
target snaps to the target instead; (ii) at `t = 1` the merge does not
reproduce `to` when `to` ends with an open `End` (the close flag is
forced to `true`). -/
theorem C8_counterexample :
    (wellFormed [Event.begin ⟨0, 0⟩, Event.end_ ⟨0, 0⟩ ⟨0, 0⟩ true] =
       true ∧
     wellFormed [Event.begin ⟨1 / 2, 0⟩,
       Event.end_ ⟨1 / 2, 0⟩ ⟨1 / 2, 0⟩ true] = true ∧
     (lerp_equal_sides
        [Event.begin ⟨0, 0⟩, Event.end_ ⟨0, 0⟩ ⟨0, 0⟩ true]
        [Event.begin ⟨1 / 2, 0⟩, Event.end_ ⟨1 / 2, 0⟩ ⟨1 / 2, 0⟩ true]
        0 1).2 ≠
       [Event.begin ⟨0, 0⟩, Event.end_ ⟨0, 0⟩ ⟨0, 0⟩ true]) ∧
    (wellFormed [Event.begin ⟨0, 0⟩, Event.end_ ⟨0, 0⟩ ⟨0, 0⟩ false] =
       true ∧
     wellFormed [Event.begin ⟨1, 0⟩, Event.end_ ⟨1, 0⟩ ⟨1, 0⟩ false] =
       true ∧
     (lerp_equal_sides
        [Event.begin ⟨0, 0⟩, Event.end_ ⟨0, 0⟩ ⟨0, 0⟩ false]
        [Event.begin ⟨1, 0⟩, Event.end_ ⟨1, 0⟩ ⟨1, 0⟩ false] 1 0).2 ≠
       [Event.begin ⟨1, 0⟩, Event.end_ ⟨1, 0⟩ ⟨1, 0⟩ false]) := by
  refine ⟨⟨by decide, by decide, ?_⟩, ⟨by decide, by decide, ?_⟩⟩ <;>
    with_unfolding_all decide

/-- C8 (amended): for margin ≥ 0, (i) at `t = 0` the point-level checked
lerp returns each `from` point exactly whenever its distance to the
target exceeds the margin (otherwise it snaps to the target); (ii) at
`t = 1` the equal-length merge reproduces `to` exactly, provided every
positional pair is snap-compatible: a `Start` of `to` faces a `Start` of
`from`, and every open `End` of `to` faces a `Quadratic` or `Cubic` of
`from` (closed `End` commands and all other variants of `to` impose no
constraint on the facing command). -/
theorem C8_amended (from_ to_ : Path) (p : ℚ) (a b : Point)
    (hp : 0 ≤ p) :
    (Point.distGT (Point.lerp a b 0) b p = true →
      Point.lerped a b 0 p = (false, a)) ∧
    (snapAligned from_ to_ = true →
      lerp_equal_sides from_ to_ 1 p = (true, to_)) := by
  constructor
  · intro hgt
    simp only [Point.lerped]
    rw [hgt]
    simp [Point.lerp_zero]
  · intro hsnap
    exact merge_snap_one hp from_ to_ hsnap

theorem C8_amended_witness :
    Point.lerped ⟨2, 0⟩ ⟨0, 0⟩ 0 1 = (false, ⟨2, 0⟩) ∧
    lerp_equal_sides
      [Event.begin ⟨0, 0⟩, Event.quadratic ⟨0, 0⟩ ⟨1, 1⟩ ⟨2, 0⟩]
      [Event.begin ⟨5, 0⟩, Event.end_ ⟨5, 0⟩ ⟨5, 0⟩ false] 1 1 =
      (true, [Event.begin ⟨5, 0⟩, Event.end_ ⟨5, 0⟩ ⟨5, 0⟩ false]) := by
  constructor
  · exact (C8_amended [] [] 1 ⟨2, 0⟩ ⟨0, 0⟩ (by norm_num)).1
      (by with_unfolding_all decide)
  · exact (C8_amended
      [Event.begin ⟨0, 0⟩, Event.quadratic ⟨0, 0⟩ ⟨1, 1⟩ ⟨2, 0⟩]
      [Event.begin ⟨5, 0⟩, Event.end_ ⟨5, 0⟩ ⟨5, 0⟩ false] 1
      ⟨0, 0⟩ ⟨0, 0⟩ (by norm_num)).2 (by decide)

/-- C10 counterexample: both inputs end with an `End` command, the lerp
converges in the greater-sides case and returns `to` verbatim — the
produced path ends with an `End` whose close flag is `false`, so the
merge does not always close the contour. -/
theorem C10_counterexample :
    Path.lerped
      [Event.begin ⟨0, 0⟩, Event.line ⟨0, 0⟩ ⟨1, 0⟩,
       Event.line ⟨1, 0⟩ ⟨0, 0⟩, Event.end_ ⟨0, 0⟩ ⟨0, 0⟩ true]
      [Event.begin ⟨0, 0⟩, Event.line ⟨0, 0⟩ ⟨1, 0⟩,
       Event.end_ ⟨1, 0⟩ ⟨0, 0⟩ false] (1 / 2) 10 =
    some (true,
      [Event.begin ⟨0, 0⟩, Event.line ⟨0, 0⟩ ⟨1, 0⟩,
       Event.end_ ⟨1, 0⟩ ⟨0, 0⟩ false]) := by
  with_unfolding_all decide

/-- C10 (amended): in the equal-length merge, when both final commands
are `End` the produced path ends with an `End` whose close flag is forced
to `true` regardless of the input flags; however, when `from` has more
commands than `to` and the lerp converges, the engine returns `to`
verbatim, so the close flag of `to` is preserved (an open target stays
open). -/
theorem C10_end_close (from_ to_ : Path) (t p : ℚ)
    (l1 f1 : Point) (c1 : Bool) (l2 f2 : Point) (c2 : Bool)
    (hlen : from_.length = to_.length)
    (h1 : from_.getLast? = some (.end_ l1 f1 c1))
    (h2 : to_.getLast? = some (.end_ l2 f2 c2)) :
    ∃ l f, (lerp_equal_sides from_ to_ t p).2.getLast? =
      some (.end_ l f true) := by
  induction from_ generalizing to_ with
  | nil => simp at h1
  | cons x xs ih =>
      cases to_ with
      | nil => simp at h2
      | cons y ys =>
          cases xs with
          | nil =>
              cases ys with
              | nil =>
                  simp only [List.getLast?_singleton,
                    Option.some.injEq] at h1 h2
                  subst h1
                  subst h2
                  refine ⟨(Point.lerped l1 l2 t p).2,
                    (Point.lerped f1 f2 t p).2, ?_⟩
                  rw [lerp_equal_sides_eq]
                  simp [Event.lerped, lerp_other]
              | cons y2 ys2 => simp at hlen
          | cons x2 xs2 =>
              cases ys with
              | nil => simp at hlen
              | cons y2 ys2 =>
                  rw [List.getLast?_cons_cons] at h1 h2
                  have hlen' : (x2 :: xs2).length = (y2 :: ys2).length := by
                    simpa using hlen
                  obtain ⟨l, f, hrec⟩ := ih (y2 :: ys2) hlen' h1 h2
                  refine ⟨l, f, ?_⟩
                  rw [lerp_equal_sides_eq] at hrec ⊢
                  simp only [List.zip_cons_cons, List.map_cons] at hrec ⊢
                  rw [List.getLast?_cons_cons]
                  exact hrec

theorem C10_end_close_witness :
    ∃ l f,
      (lerp_equal_sides
        [Event.begin ⟨0, 0⟩, Event.end_ ⟨0, 0⟩ ⟨0, 0⟩ true]
        [Event.begin ⟨1, 0⟩, Event.end_ ⟨1, 0⟩ ⟨1, 0⟩ false]
        (1 / 2) 10).2.getLast? = some (.end_ l f true) :=
  C10_end_close _ _ (1 / 2) 10 ⟨0, 0⟩ ⟨0, 0⟩ true ⟨1, 0⟩ ⟨1, 0⟩
    false rfl (by decide) (by decide)

end ShapeLerp
